import Mathlib

/-!
# Verification of the data-provenance lineage tracker

Shallow embedding of the lineage store (`src/database.py`, class `LineageDB`)
and proofs of the specification's claims about it.

The SQLite-backed ledger is modelled as a list of `Record`s in insertion
order; `AUTOINCREMENT` row ids are modelled by assigning `length + 1` on
insert (the system exposes no delete, so ids are exactly the 1-based
insertion positions).  `SELECT ... ORDER BY timestamp ASC` is modelled as a
stable sort (insertion sort) by timestamp over the rows in rowid order —
one admissible refinement of the SQL contract, which leaves the relative
order of equal-timestamp rows unspecified (see `sqlAdmissible`).
JSON payloads are modelled by an inductive `Json` document type; the
`json.dumps`/`json.loads` pair is inverse on such documents, so the stored
`metadata` column holds the document itself (`none` for SQL `NULL`), while
the Python truthiness tests surrounding serialization are modelled
explicitly by `pyTruthy`.
-/

/-- A JSON-serializable document (tree of null/bool/int/string/array/object),
the model of Python values passed as `metadata`. -/
inductive Json where
  | null : Json
  | bool (b : Bool) : Json
  | num (n : Int) : Json
  | str (s : String) : Json
  | arr (elems : List Json) : Json
  | obj (fields : List (String × Json)) : Json

/-- Python truthiness (`if metadata:` / `if record["source_dataset_id"]:`)
of a JSON document: `None`, `False`, `0`, `""`, `[]`, `{}` are falsy. -/
def pyTruthy : Json → Bool
  | .null => false
  | .bool b => b
  | .num n => n != 0
  | .str s => s != ""
  | .arr elems => !elems.isEmpty
  | .obj fields => !fields.isEmpty

/-- One row of the `lineage_records` table (`src/database.py`, schema in
`_init_schema`).  `metadata` holds the deserialized JSON document stored in
the `metadata` TEXT column (`none` for SQL `NULL`). -/
structure Record where
  id : Nat
  dataset_id : String
  operation : String
  source_dataset_id : Option String
  metadata : Option Json
  timestamp : String
  created_at : String

/-- The append-only `lineage_records` table, in rowid (insertion) order. -/
abbrev Ledger := List Record

/-- `metadata_json = json.dumps(metadata) if metadata else None`
(`src/database.py:78`): a Python-falsy payload (absent, or e.g. the empty
dict) is stored as SQL `NULL`; otherwise the serialized document is stored.
Since `json.loads (json.dumps d) = d` for JSON-serializable documents, the
stored column is modelled by the document itself. -/
def metaStore (metadata : Option Json) : Option Json :=
  match metadata with
  | none => none
  | some j => if pyTruthy j then some j else none

/-- `LineageDB.record_transformation` (`src/database.py:58-88`): inserts one
row with the given fields, timestamp `now` (Python `datetime.utcnow()`),
storage timestamp `created` (SQLite `CURRENT_TIMESTAMP`), and returns the
fresh autoincrement rowid together with the new ledger.  No validation of
any field is performed. -/
def record_transformation (db : Ledger) (dataset_id operation : String)
    (source_dataset_id : Option String) (metadata : Option Json)
    (now created : String) : Nat × Ledger :=
  let rid := db.length + 1
  (rid, db ++ [{ id := rid, dataset_id := dataset_id, operation := operation,
                 source_dataset_id := source_dataset_id,
                 metadata := metaStore metadata,
                 timestamp := now, created_at := created }])

/-- Timestamp comparison used by `ORDER BY timestamp ASC`. -/
def tsLe (a b : Record) : Prop := a.timestamp ≤ b.timestamp

instance : DecidableRel tsLe := fun a b =>
  inferInstanceAs (Decidable (a.timestamp ≤ b.timestamp))

/-- `LineageDB.get_lineage` (`src/database.py:90-129`):
`SELECT ... FROM lineage_records WHERE dataset_id = ? ORDER BY timestamp ASC`.
The rows matching the exact dataset id are returned sorted by timestamp.
The SQL names no secondary sort key, so the order of equal-timestamp rows
is unspecified; the executable model picks the stable rowid-order
refinement, one admissible result among several (`sqlAdmissible`,
`get_lineage_tie_order_unspecified`).  The `metadata`
column is deserialized, which on the stored model is the identity
(`json.loads(row["metadata"]) if row["metadata"] else None`, and a stored
serialization is never the empty string). -/
def get_lineage (db : Ledger) (dataset_id : String) : List Record :=
  (db.filter (fun r => r.dataset_id == dataset_id)).insertionSort tsLe

/-- `LineageDB.list_all_datasets` (`src/database.py:169-183`):
`SELECT DISTINCT dataset_id FROM lineage_records ORDER BY dataset_id`. -/
def list_all_datasets (db : Ledger) : List String :=
  ((db.map (fun r => r.dataset_id)).dedup).insertionSort (· ≤ ·)

/-- A node of the lineage graph built by `get_full_lineage_graph`:
the dictionary `{"dataset_id": ..., "operations": [...], "sources": [...]}`
(`src/database.py:142,158-162`). -/
inductive Node where
  | mk (dataset_id : String) (operations : List (String × String × Option Json))
       (sources : List Node)

def Node.dataset_id : Node → String
  | .mk d _ _ => d

def Node.operations : Node → List (String × String × Option Json)
  | .mk _ ops _ => ops

def Node.sources : Node → List Node
  | .mk _ _ srcs => srcs

/-- The freshly created graph dictionary for `id`:
`{"dataset_id": id, "operations": [], "sources": []}`. -/
def Node.empty (id : String) : Node := .mk id [] []

/-- One iteration of the `for record in records` loop of `build_graph`
(`src/database.py:150-164`): append the record's
`{operation, timestamp, metadata}` to the node's `operations`; if the
record's `source_dataset_id` is truthy (present and non-empty), create a
child node via the recursive call `f` (which threads the shared `visited`
set) and append it to `sources`. -/
def expandStep (f : String → List String → Node × List String)
    (acc : Node × List String) (r : Record) : Node × List String :=
  let node := acc.1
  let node := Node.mk node.dataset_id
    (node.operations ++ [(r.operation, r.timestamp, r.metadata)]) node.sources
  match r.source_dataset_id with
  | none => (node, acc.2)
  | some s =>
    if s = "" then (node, acc.2)
    else
      let res := f s acc.2
      (Node.mk node.dataset_id node.operations (node.sources ++ [res.1]), res.2)

/-- The recursive `build_graph(current_id, parent_graph)` closure of
`LineageDB.get_full_lineage_graph` (`src/database.py:144-164`), with the
shared mutable `visited` set threaded explicitly and the recursion depth
made explicit by `fuel` (the Python recursion terminates because `visited`
only grows; `expandGo_stable` below shows any fuel larger than the
number of reachable dataset ids computes the same result). -/
def expandGo (db : Ledger) : Nat → String → List String → Node × List String
  | 0, id, visited => (Node.empty id, visited)
  | fuel + 1, id, visited =>
    if id ∈ visited then (Node.empty id, visited)
    else
      (get_lineage db id).foldl (expandStep (expandGo db fuel))
        (Node.empty id, id :: visited)

/-- `LineageDB.get_full_lineage_graph` (`src/database.py:131-167`): run the
recursive expansion from the requested id with an initially empty visited
set.  The fuel `db.length + 2` exceeds the recursion depth ever reached
(see `expandGo_stable`). -/
def get_full_lineage_graph (db : Ledger) (dataset_id : String) : Node :=
  (expandGo db (db.length + 2) dataset_id []).1

/-- The requests the HTTP façade (`src/main.py`) can make of the store. -/
inductive DBOp where
  | append (dataset_id operation : String) (source_dataset_id : Option String)
      (metadata : Option Json) (now created : String)
  | lookup (dataset_id : String)
  | buildGraph (dataset_id : String)
  | listAll

/-- Result of one store operation. -/
inductive DBOut where
  | recId (n : Nat)
  | records (l : List Record)
  | node (n : Node)
  | ids (l : List String)

/-- Run one store operation on the ledger, returning its output and the
ledger afterwards.  The three read methods execute only `SELECT`
statements (`src/database.py:90-183`), so they return the ledger unchanged;
`record_transformation` executes an `INSERT`. -/
def runOp (db : Ledger) : DBOp → DBOut × Ledger
  | .append d o s m t c =>
    let res := record_transformation db d o s m t c
    (.recId res.1, res.2)
  | .lookup d => (.records (get_lineage db d), db)
  | .buildGraph d => (.node (get_full_lineage_graph db d), db)
  | .listAll => (.ids (list_all_datasets db), db)

/-- The ledger after a sequence of store operations. -/
def runOps (db : Ledger) (ops : List DBOp) : Ledger :=
  ops.foldl (fun s op => (runOp s op).2) db

/-- Whether an operation is one of the three read methods. -/
def DBOp.isRead : DBOp → Bool
  | .append _ _ _ _ _ _ => false
  | _ => true

/-! ## Basic lemmas about the read primitives -/

/-- Membership characterization of `get_lineage`: exactly the ledger rows
whose `dataset_id` matches the argument. -/
theorem mem_get_lineage {db : Ledger} {id : String} {r : Record} :
    r ∈ get_lineage db id ↔ r ∈ db ∧ r.dataset_id = id := by
  unfold get_lineage
  rw [List.mem_insertionSort, List.mem_filter]
  simp

/-- `C8`: For every dataset id with zero records in the ledger,
`get_full_lineage_graph` returns (without error) a node whose `dataset_id`
is the requested id and whose `operations` and `sources` are both empty. -/
theorem buildGraph_no_records (db : Ledger) (id : String)
    (h : ∀ r ∈ db, r.dataset_id ≠ id) :
    get_full_lineage_graph db id = Node.mk id [] [] := by
  have hfil : db.filter (fun r => r.dataset_id == id) = [] := by
    rw [List.filter_eq_nil_iff]
    intro r hr
    simpa using h r hr
  unfold get_full_lineage_graph
  simp [expandGo, get_lineage, hfil, List.insertionSort, Node.empty]

/-- Witness for `C8`: a ledger with one record for `a` yields the empty
node when the graph is requested for the absent dataset `b`. -/
theorem buildGraph_no_records_witness :
    get_full_lineage_graph
      [{ id := 1, dataset_id := "a", operation := "load",
         source_dataset_id := none, metadata := none,
         timestamp := "t1", created_at := "t1" }] "b" = Node.mk "b" [] [] :=
  buildGraph_no_records _ "b" (by decide)

/-! ## C3: no emptiness validation on append -/

/-- Counterexample for `C3`: appending with empty `dataset_id` and empty
`operation` does not fail and the record does reach the store — the ledger
grows by one row. -/
theorem append_empty_counterexample :
    (record_transformation [] "" "" none none "t" "t").2 =
      [{ id := 1, dataset_id := "", operation := "",
         source_dataset_id := none, metadata := none,
         timestamp := "t", created_at := "t" }] ∧
    (record_transformation [] "" "" none none "t" "t").2 ≠ [] :=
  ⟨rfl, by simp [record_transformation]⟩

/-- `C3` amended: `record_transformation` performs no emptiness validation:
even when `dataset_id` or `operation` is the empty string the call succeeds,
returns the fresh rowid, and appends exactly the one given record to the
ledger.  (Only a *missing* field is rejected, by the request model
`TransformationRecord` of the HTTP façade, before the core is reached.) -/
theorem append_no_validation (db : Ledger) (d o : String) (s : Option String)
    (m : Option Json) (t c : String) (_h : d = "" ∨ o = "") :
    (record_transformation db d o s m t c).1 = db.length + 1 ∧
    (record_transformation db d o s m t c).2 =
      db ++ [{ id := db.length + 1, dataset_id := d, operation := o,
               source_dataset_id := s, metadata := metaStore m,
               timestamp := t, created_at := c }] :=
  ⟨rfl, rfl⟩

/-- Witness for `C3`'s amended theorem at an empty `dataset_id`. -/
theorem append_no_validation_witness :
    (record_transformation [] "" "op" none none "t" "t").1 = 1 ∧
    (record_transformation [] "" "op" none none "t" "t").2 =
      [] ++ [{ id := 1, dataset_id := "", operation := "op",
               source_dataset_id := none, metadata := metaStore none,
               timestamp := "t", created_at := "t" }] :=
  append_no_validation [] "" "op" none none "t" "t" (Or.inl rfl)

/-! ## C7: distinct sorted dataset ids -/

/-- `C7`: `list_all_datasets` returns a strictly (hence deduplicated)
lexicographically sorted list whose members are exactly the values that
occur as the `dataset_id` of some appended record; ids occurring only as
`source_dataset_id` are not included. -/
theorem list_all_datasets_sorted_distinct (db : Ledger) :
    (list_all_datasets db).Sorted (· < ·) ∧
    ∀ s, s ∈ list_all_datasets db ↔ ∃ r ∈ db, r.dataset_id = s := by
  constructor
  · have hs : (list_all_datasets db).Sorted (· ≤ ·) :=
      List.sorted_insertionSort _ _
    have hn : (list_all_datasets db).Nodup :=
      (List.perm_insertionSort _ _).nodup_iff.mpr
        (List.nodup_dedup _)
    exact (hs.and hn).imp fun h => lt_of_le_of_ne h.1 h.2
  · intro s
    unfold list_all_datasets
    rw [List.mem_insertionSort, List.mem_dedup, List.mem_map]

/-! ## C9: the read operations leave the ledger unchanged -/

/-- `C9`: `get_lineage`, `get_full_lineage_graph` and `list_all_datasets`
only read: running any sequence of them leaves the ledger exactly as it
was, so reads interleaved between appends do not affect later lookups. -/
theorem reads_preserve_ledger (db : Ledger) (ops : List DBOp)
    (h : ∀ op ∈ ops, op.isRead = true) :
    runOps db ops = db ∧
    ∀ d, get_lineage (runOps db ops) d = get_lineage db d := by
  have key : runOps db ops = db := by
    induction ops generalizing db with
    | nil => rfl
    | cons op ops ih =>
      have hop := h op (List.mem_cons_self op ops)
      have hrest : ∀ o ∈ ops, o.isRead = true :=
        fun o ho => h o (List.mem_cons_of_mem op ho)
      have hstep : (runOp db op).2 = db := by
        cases op with
        | append d o s m t c => simp [DBOp.isRead] at hop
        | lookup d => rfl
        | buildGraph d => rfl
        | listAll => rfl
      show runOps (runOp db op).2 ops = db
      rw [hstep]
      exact ih db hrest
  exact ⟨key, fun d => by rw [key]⟩

/-- Witness for `C9`: a concrete ledger and a concrete sequence of the
three read operations. -/
theorem reads_preserve_ledger_witness :
    runOps [{ id := 1, dataset_id := "a", operation := "load",
              source_dataset_id := none, metadata := none,
              timestamp := "t1", created_at := "t1" }]
        [DBOp.lookup "a", DBOp.buildGraph "a", DBOp.listAll] =
      [{ id := 1, dataset_id := "a", operation := "load",
         source_dataset_id := none, metadata := none,
         timestamp := "t1", created_at := "t1" }] :=
  (reads_preserve_ledger _ _ (by intro op hop; fin_cases hop <;> rfl)).1

/-! ## C2: metadata round-trip -/

/-- Counterexample for `C2`: the empty map `{}` is Python-falsy, so
`record_transformation` stores SQL `NULL` for it and `get_lineage` returns
`None` instead of the empty map — the round-trip is not verbatim. -/
theorem metadata_roundtrip_counterexample :
    (get_lineage
        (record_transformation [] "d" "op" none (some (Json.obj [])) "t" "t").2
        "d").map (fun r => r.metadata) = [none] ∧
    some (Json.obj []) ≠ (none : Option Json) :=
  ⟨rfl, by simp⟩

/-- `C2` amended: the metadata payload round-trips verbatim through
`record_transformation` and `get_lineage` for every payload that is absent
or Python-truthy (in particular every non-empty JSON-serializable map);
a Python-falsy payload such as the empty map is stored as `NULL` and comes
back as `None`. -/
theorem metadata_roundtrip_truthy (db : Ledger) (d o : String)
    (s : Option String) (m : Option Json) (t c : String)
    (h : m.all pyTruthy = true) :
    ∃ r ∈ get_lineage (record_transformation db d o s m t c).2 d,
      r.id = (record_transformation db d o s m t c).1 ∧ r.metadata = m := by
  have hmeta : metaStore m = m := by
    cases m with
    | none => rfl
    | some j =>
      simp only [Option.all_some] at h
      simp [metaStore, h]
  refine ⟨{ id := db.length + 1, dataset_id := d, operation := o,
            source_dataset_id := s, metadata := metaStore m,
            timestamp := t, created_at := c }, ?_, rfl, hmeta⟩
  exact mem_get_lineage.mpr
    ⟨List.mem_append_right db (List.mem_singleton.mpr rfl), rfl⟩

/-- Witness for `C2`'s amended theorem: a non-empty map payload is
returned verbatim. -/
theorem metadata_roundtrip_truthy_witness :
    ∃ r ∈ get_lineage
        (record_transformation [] "d" "op" none
          (some (Json.obj [("rows", Json.num 100)])) "t" "t").2 "d",
      r.id = (record_transformation [] "d" "op" none
          (some (Json.obj [("rows", Json.num 100)])) "t" "t").1 ∧
      r.metadata = some (Json.obj [("rows", Json.num 100)]) :=
  metadata_roundtrip_truthy [] "d" "op" none _ "t" "t" rfl

/-! ## C1: ordering of `get_lineage` results -/

/-- The ordering the spec claims for lookup results: timestamp ascending,
ties broken by `id` (insertion order) ascending. -/
def recLex (a b : Record) : Prop :=
  a.timestamp < b.timestamp ∨ (a.timestamp = b.timestamp ∧ a.id < b.id)

/-- What the query `SELECT ... WHERE dataset_id = ? ORDER BY timestamp ASC`
(`src/database.py:102-114`) guarantees about its result: it is a
permutation of the rows whose `dataset_id` matches, sorted by timestamp.
The query names no secondary sort key, and SQLite leaves the relative
order of rows with equal `ORDER BY` keys unspecified, so every list
satisfying this predicate is an admissible result of the query. -/
def sqlAdmissible (db : Ledger) (dataset_id : String) (l : List Record) : Prop :=
  l.Perm (db.filter (fun r => r.dataset_id == dataset_id)) ∧ l.Sorted tsLe

instance : IsTotal Record tsLe :=
  ⟨fun a b => le_total a.timestamp b.timestamp⟩

instance : IsTrans Record tsLe :=
  ⟨fun _ _ _ hab hbc => le_trans hab hbc⟩

/-- The executable model `get_lineage` returns one admissible result of
the query (the stable rowid-order refinement). -/
theorem get_lineage_sqlAdmissible (db : Ledger) (dataset_id : String) :
    sqlAdmissible db dataset_id (get_lineage db dataset_id) :=
  ⟨List.perm_insertionSort tsLe _, List.sorted_insertionSort tsLe _⟩

/-- First record of the failing input for `C1`: dataset `d`, id 1,
timestamp `t1`. -/
def tieRec1 : Record :=
  { id := 1, dataset_id := "d", operation := "load",
    source_dataset_id := none, metadata := none,
    timestamp := "t1", created_at := "t1" }

/-- Second record of the failing input for `C1`: same dataset `d` and the
same timestamp `t1`, id 2. -/
def tieRec2 : Record :=
  { id := 2, dataset_id := "d", operation := "clean",
    source_dataset_id := none, metadata := none,
    timestamp := "t1", created_at := "t1" }

/-- `C1` (code/spec divergence): on a ledger with two records for `d`
sharing the timestamp `t1` (ids 1 and 2), both orders of the two records
are admissible results of the query executed by `get_lineage` — the SQL
sorts by timestamp only, with no `id` tie-break — and one of them
violates the timestamp-then-id ordering the claim asserts.  The spec’s
invariant is clearly the intent (it notes that timestamp collisions are
possible), but the query would need a secondary sort key `id ASC` to
guarantee it. -/
theorem get_lineage_tie_order_unspecified :
    sqlAdmissible [tieRec1, tieRec2] "d" [tieRec1, tieRec2] ∧
    sqlAdmissible [tieRec1, tieRec2] "d" [tieRec2, tieRec1] ∧
    ¬ ([tieRec2, tieRec1].Sorted recLex) := by
  have hfil : List.filter (fun r => r.dataset_id == "d") [tieRec1, tieRec2] =
      [tieRec1, tieRec2] := by
    simp [tieRec1, tieRec2]
  refine ⟨⟨?_, ?_⟩, ⟨?_, ?_⟩, ?_⟩
  · rw [hfil]
  · simp [List.sorted_cons, tsLe, tieRec1, tieRec2]
  · rw [hfil]
    exact List.Perm.swap tieRec1 tieRec2 []
  · simp [List.sorted_cons, tsLe, tieRec1, tieRec2]
  · intro h
    have h21 := (List.pairwise_cons.mp h).1 tieRec1 (List.mem_singleton_self tieRec1)
    simp only [recLex, tieRec1, tieRec2] at h21
    rcases h21 with h21 | ⟨-, h21⟩
    · exact lt_irrefl _ h21
    · omega

/-! ## C5: self-referential record -/

/-- `C5`: a ledger with exactly one record `Append(A, op1, source=A)` yields
for `BuildGraph(A)` a node for `A` with exactly one operation `op1` and
exactly one source entry for `A` whose own operations and sources are both
empty: the self-reference expands once, then the recursive call for the
already-visited id returns the truncated node.  (The dataset id is
non-empty, as the spec's data model requires; an empty id would be falsy in
the `if record["source_dataset_id"]` test.) -/
theorem self_reference_truncated (A op1 t c : String) (hA : A ≠ "") :
    get_full_lineage_graph
      [{ id := 1, dataset_id := A, operation := op1,
         source_dataset_id := some A, metadata := none,
         timestamp := t, created_at := c }] A =
    Node.mk A [(op1, t, none)] [Node.mk A [] []] := by
  unfold get_full_lineage_graph
  simp [expandGo, get_lineage, expandStep, List.insertionSort,
    List.orderedInsert, hA, Node.empty, Node.dataset_id, Node.operations,
    Node.sources]

/-- Witness for `C5` at the concrete dataset id `A`. -/
theorem self_reference_truncated_witness :
    get_full_lineage_graph
      [{ id := 1, dataset_id := "A", operation := "op1",
         source_dataset_id := some "A", metadata := none,
         timestamp := "t", created_at := "t" }] "A" =
    Node.mk "A" [("op1", "t", none)] [Node.mk "A" [] []] :=
  self_reference_truncated "A" "op1" "t" "t" (by decide)

/-! ## C4: diamond lineage, first visit wins -/

/-- `C4`: in a diamond where `X` and `Y` both list the same upstream source
`S` (root `R` has records pointing to `X` then `Y`), `S` is fully expanded
only inside the subtree of `X`, the branch reached first in traversal
order; the later occurrence of `S`, under `Y`, yields a node with
`dataset_id` `S` and empty operations and sources — the visited set is
shared across the whole traversal, not per branch. -/
theorem diamond_first_visit_wins (R X Y S op1 op2 opX opY opS : String)
    (hXR : X ≠ R) (hYR : Y ≠ R) (hSR : S ≠ R)
    (hYX : Y ≠ X) (hSX : S ≠ X) (hSY : S ≠ Y)
    (hX : X ≠ "") (hY : Y ≠ "") (hS : S ≠ "") :
    get_full_lineage_graph
      [{ id := 1, dataset_id := R, operation := op1,
         source_dataset_id := some X, metadata := none,
         timestamp := "t", created_at := "t" },
       { id := 2, dataset_id := R, operation := op2,
         source_dataset_id := some Y, metadata := none,
         timestamp := "t", created_at := "t" },
       { id := 3, dataset_id := X, operation := opX,
         source_dataset_id := some S, metadata := none,
         timestamp := "t", created_at := "t" },
       { id := 4, dataset_id := Y, operation := opY,
         source_dataset_id := some S, metadata := none,
         timestamp := "t", created_at := "t" },
       { id := 5, dataset_id := S, operation := opS,
         source_dataset_id := none, metadata := none,
         timestamp := "t", created_at := "t" }] R =
    Node.mk R [(op1, "t", none), (op2, "t", none)]
      [Node.mk X [(opX, "t", none)] [Node.mk S [(opS, "t", none)] []],
       Node.mk Y [(opY, "t", none)] [Node.mk S [] []]] := by
  unfold get_full_lineage_graph
  simp [expandGo, get_lineage, expandStep, List.insertionSort,
    List.orderedInsert, tsLe, Node.empty, Node.dataset_id, Node.operations,
    Node.sources, hXR, hYR, hSR, hYX, hSX, hSY, hX, hY, hS,
    hXR.symm, hYR.symm, hSR.symm, hYX.symm, hSX.symm, hSY.symm]

/-- Witness for `C4` at concrete dataset ids. -/
theorem diamond_first_visit_wins_witness :
    get_full_lineage_graph
      [{ id := 1, dataset_id := "R", operation := "op1",
         source_dataset_id := some "X", metadata := none,
         timestamp := "t", created_at := "t" },
       { id := 2, dataset_id := "R", operation := "op2",
         source_dataset_id := some "Y", metadata := none,
         timestamp := "t", created_at := "t" },
       { id := 3, dataset_id := "X", operation := "opX",
         source_dataset_id := some "S", metadata := none,
         timestamp := "t", created_at := "t" },
       { id := 4, dataset_id := "Y", operation := "opY",
         source_dataset_id := some "S", metadata := none,
         timestamp := "t", created_at := "t" },
       { id := 5, dataset_id := "S", operation := "opS",
         source_dataset_id := none, metadata := none,
         timestamp := "t", created_at := "t" }] "R" =
    Node.mk "R" [("op1", "t", none), ("op2", "t", none)]
      [Node.mk "X" [("opX", "t", none)] [Node.mk "S" [("opS", "t", none)] []],
       Node.mk "Y" [("opY", "t", none)] [Node.mk "S" [] []]] :=
  diamond_first_visit_wins "R" "X" "Y" "S" "op1" "op2" "opX" "opY" "opS"
    (by decide) (by decide) (by decide) (by decide) (by decide) (by decide)
    (by decide) (by decide) (by decide)

/-! ## C6: termination of the graph traversal, bounded by reachable ids -/

/-- One backward step along a source link recorded in the ledger: dataset
`a` has a record naming `b` as a (truthy, hence non-empty) source. -/
def srcStep (db : Ledger) (a b : String) : Prop :=
  ∃ r ∈ db, r.dataset_id = a ∧ r.source_dataset_id = some b ∧ b ≠ ""

/-- The dataset identifiers reachable from `root` by following source links
backward — exactly the ids the traversal can ever expand. -/
def reaches (db : Ledger) (root : String) : Set String :=
  {x | Relation.ReflTransGen (srcStep db) root x}

/-- The set of strings occurring in a visited list. -/
def visSet (v : List String) : Set String := {x | x ∈ v}

theorem mem_reaches_self (db : Ledger) (root : String) : root ∈ reaches db root :=
  Relation.ReflTransGen.refl

theorem reaches_mono_step {db : Ledger} {a b : String} (h : srcStep db a b) :
    reaches db b ⊆ reaches db a := fun _x hx =>
  Relation.ReflTransGen.head h hx

theorem reaches_subset (db : Ledger) (root : String) :
    reaches db root ⊆
      insert root ↑((db.filterMap (fun r => r.source_dataset_id)).toFinset) := by
  intro x hx
  induction hx with
  | refl => exact Set.mem_insert root _
  | tail _hab hbc _ih =>
    obtain ⟨r, hr, _, hsrc, _⟩ := hbc
    refine Set.mem_insert_iff.mpr (Or.inr ?_)
    simp only [Finset.coe_sort_coe, List.coe_toFinset, Set.mem_setOf_eq,
      List.mem_filterMap]
    exact ⟨r, hr, hsrc⟩

theorem reaches_finite (db : Ledger) (root : String) :
    (reaches db root).Finite :=
  Set.Finite.subset
    ((((db.filterMap (fun r => r.source_dataset_id)).toFinset :
        Finset String).finite_toSet).insert root)
    (reaches_subset db root)

/-- The traversal's bound: at most one more than the number of source ids
in the ledger, hence at most `db.length + 1`. -/
theorem reaches_ncard_le (db : Ledger) (root : String) :
    (reaches db root).ncard ≤ db.length + 1 := by
  have h1 : (reaches db root).ncard ≤
      (insert root ↑((db.filterMap (fun r => r.source_dataset_id)).toFinset) :
        Set String).ncard :=
    Set.ncard_le_ncard (reaches_subset db root)
      ((((db.filterMap (fun r => r.source_dataset_id)).toFinset :
        Finset String).finite_toSet).insert root)
  have h2 : (insert root ↑((db.filterMap (fun r => r.source_dataset_id)).toFinset) :
      Set String).ncard ≤
      (db.filterMap (fun r => r.source_dataset_id)).toFinset.card + 1 := by
    rw [← Set.ncard_coe_Finset ((db.filterMap (fun r => r.source_dataset_id)).toFinset)]
    exact Set.ncard_insert_le root _
  have h3 : (db.filterMap (fun r => r.source_dataset_id)).toFinset.card ≤ db.length := by
    calc (db.filterMap (fun r => r.source_dataset_id)).toFinset.card
        ≤ (db.filterMap (fun r => r.source_dataset_id)).length :=
          (db.filterMap (fun r => r.source_dataset_id)).toFinset_card_le
      _ ≤ db.length := List.length_filterMap_le _ _
  omega

/-- The visited list only ever grows across one loop body. -/
theorem foldl_expandStep_vis_mono
    (f : String → List String → Node × List String)
    (hf : ∀ s v, v ⊆ (f s v).2) :
    ∀ (recs : List Record) (acc : Node × List String),
      acc.2 ⊆ (recs.foldl (expandStep f) acc).2 := by
  intro recs
  induction recs with
  | nil => intro acc; exact fun _ h => h
  | cons r rs ih =>
    intro acc
    have hstep : acc.2 ⊆ (expandStep f acc r).2 := by
      unfold expandStep
      cases r.source_dataset_id with
      | none => exact fun _ h => h
      | some s =>
        by_cases hs : s = ""
        · simp only [if_pos hs]; exact fun _ h => h
        · simp only [if_neg hs]; exact hf s acc.2
    exact fun x hx => ih (expandStep f acc r) (hstep hx)

/-- The visited list only ever grows across a recursive expansion. -/
theorem expandGo_vis_mono (db : Ledger) :
    ∀ (fuel : Nat) (id : String) (visited : List String),
      visited ⊆ (expandGo db fuel id visited).2 := by
  intro fuel
  induction fuel with
  | zero => intro id visited; exact fun _ h => h
  | succ fuel ih =>
    intro id visited
    unfold expandGo
    by_cases hv : id ∈ visited
    · simp only [if_pos hv]; exact fun _ h => h
    · simp only [if_neg hv]
      exact fun x hx =>
        foldl_expandStep_vis_mono (expandGo db fuel) (fun s v => ih s v) _ _
          (List.mem_cons_of_mem id hx)

/-- Recursing into a source strictly shrinks the count of reachable,
not-yet-visited identifiers: the parent id is newly visited, every id
reachable from the child is reachable from the parent, and the child call
starts from a visited list extending `id :: visited`. -/
theorem measure_child_lt (db : Ledger) {id s : String} {visited v' : List String}
    (hid : id ∉ visited) (hstep : srcStep db id s)
    (hvv : ∀ x ∈ id :: visited, x ∈ v') :
    (reaches db s \ visSet v').ncard < (reaches db id \ visSet visited).ncard := by
  have hBfin : (reaches db id \ visSet visited).Finite :=
    (reaches_finite db id).diff _
  apply Set.ncard_lt_ncard ?_ hBfin
  constructor
  · intro x hx
    rcases hx with ⟨hxr, hxv⟩
    refine ⟨reaches_mono_step hstep hxr, fun hxvis => hxv ?_⟩
    exact hvv x (List.mem_cons_of_mem id hxvis)
  · intro hsub
    have hidB : id ∈ reaches db id \ visSet visited :=
      ⟨mem_reaches_self db id, hid⟩
    have hidA := hsub hidB
    exact hidA.2 (hvv id (List.mem_cons_self id visited))

/-- Fuel-indifference: once the fuel exceeds the number of reachable
not-yet-visited dataset identifiers, the result of the traversal no longer
depends on it.  This is the termination argument of `build_graph`: its
recursion depth is bounded by the number of distinct reachable ids. -/
theorem expandGo_stable (db : Ledger) :
    ∀ (n fuel₁ fuel₂ : Nat) (id : String) (visited : List String),
      (reaches db id \ visSet visited).ncard ≤ n → n < fuel₁ → n < fuel₂ →
      expandGo db fuel₁ id visited = expandGo db fuel₂ id visited := by
  intro n
  induction n using Nat.strong_induction_on with
  | _ n IH =>
    intro fuel₁ fuel₂ id visited hm h1 h2
    match fuel₁, fuel₂ with
    | f₁ + 1, f₂ + 1 =>
      unfold expandGo
      by_cases hv : id ∈ visited
      · simp only [if_pos hv]
      · simp only [if_neg hv]
        have hmpos : 0 < (reaches db id \ visSet visited).ncard := by
          rw [Set.ncard_pos ((reaches_finite db id).diff _)]
          exact ⟨id, mem_reaches_self db id, hv⟩
        suffices H : ∀ (recs : List Record), (∀ r ∈ recs, r ∈ db ∧ r.dataset_id = id) →
            ∀ acc : Node × List String, (∀ x ∈ id :: visited, x ∈ acc.2) →
            recs.foldl (expandStep (expandGo db f₁)) acc =
              recs.foldl (expandStep (expandGo db f₂)) acc by
          exact H (get_lineage db id) (fun r hr => mem_get_lineage.mp hr) _
            (fun x hx => hx)
        intro recs
        induction recs with
        | nil => intro _ acc _; rfl
        | cons r rs ihr =>
          intro hrecs acc hacc
          have hr := hrecs r (List.mem_cons_self r rs)
          have hrest : ∀ q ∈ rs, q ∈ db ∧ q.dataset_id = id :=
            fun q hq => hrecs q (List.mem_cons_of_mem r hq)
          simp only [List.foldl_cons]
          cases hsrc : r.source_dataset_id with
          | none =>
            have : expandStep (expandGo db f₁) acc r =
                expandStep (expandGo db f₂) acc r := by
              unfold expandStep; rw [hsrc]
            rw [this]
            exact ihr hrest _ (by
              intro x hx
              have : (expandStep (expandGo db f₂) acc r).2 = acc.2 := by
                unfold expandStep; rw [hsrc]
              rw [this]
              exact hacc x hx)
          | some s =>
            by_cases hs : s = ""
            · have e₁ : expandStep (expandGo db f₁) acc r =
                  expandStep (expandGo db f₂) acc r := by
                unfold expandStep; rw [hsrc]; simp only [if_pos hs]
              have e₂ : (expandStep (expandGo db f₂) acc r).2 = acc.2 := by
                unfold expandStep; rw [hsrc]; simp only [if_pos hs]
              rw [e₁]
              exact ihr hrest _ (fun x hx => by rw [e₂]; exact hacc x hx)
            · have hstep : srcStep db id s := ⟨r, hr.1, hr.2, hsrc, hs⟩
              have hlt : (reaches db s \ visSet acc.2).ncard <
                  (reaches db id \ visSet visited).ncard :=
                measure_child_lt db hv hstep hacc
              have hchild : expandGo db f₁ s acc.2 = expandGo db f₂ s acc.2 := by
                refine IH (n - 1) (by omega) f₁ f₂ s acc.2 (by omega) (by omega)
                  (by omega)
              have e₁ : expandStep (expandGo db f₁) acc r =
                  expandStep (expandGo db f₂) acc r := by
                unfold expandStep; rw [hsrc]
                simp only [if_neg hs, hchild]
              rw [e₁]
              refine ihr hrest _ ?_
              intro x hx
              have e₂ : (expandStep (expandGo db f₂) acc r).2 =
                  (expandGo db f₂ s acc.2).2 := by
                unfold expandStep; rw [hsrc]; simp only [if_neg hs]
              rw [e₂]
              exact expandGo_vis_mono db f₂ s acc.2 (hacc x hx)

/-- `C6`: for every finite ledger — cyclic source links included — the
traversal terminates: any fuel (call-stack depth allowance) exceeding the
number of distinct dataset identifiers reachable from the root computes
the same graph, namely the one `get_full_lineage_graph` returns; the
visited-set guard keeps the recursion depth within that finite bound. -/
theorem buildGraph_terminates (db : Ledger) (root : String) (fuel : Nat)
    (h : (reaches db root).ncard < fuel) :
    (expandGo db fuel root []).1 = get_full_lineage_graph db root := by
  have hm : (reaches db root \ visSet []).ncard = (reaches db root).ncard := by
    have : visSet ([] : List String) = ∅ := by
      ext x; simp [visSet]
    rw [this, Set.diff_empty]
  have hbound : (reaches db root).ncard < db.length + 2 := by
    have := reaches_ncard_le db root
    omega
  unfold get_full_lineage_graph
  rw [expandGo_stable db ((reaches db root).ncard) fuel (db.length + 2) root []
    (le_of_eq hm) h hbound]

/-- Witness for `C6`: a two-record cyclic ledger (`A`'s record names source
`B`, `B`'s record names source `A`); two reachable ids, so fuel `3`
already computes the graph. -/
theorem buildGraph_terminates_witness :
    (expandGo
      [{ id := 1, dataset_id := "A", operation := "opA",
         source_dataset_id := some "B", metadata := none,
         timestamp := "t", created_at := "t" },
       { id := 2, dataset_id := "B", operation := "opB",
         source_dataset_id := some "A", metadata := none,
         timestamp := "t", created_at := "t" }] 3 "A" []).1 =
    get_full_lineage_graph
      [{ id := 1, dataset_id := "A", operation := "opA",
         source_dataset_id := some "B", metadata := none,
         timestamp := "t", created_at := "t" },
       { id := 2, dataset_id := "B", operation := "opB",
         source_dataset_id := some "A", metadata := none,
         timestamp := "t", created_at := "t" }] "A" := by
  apply buildGraph_terminates
  have hsub : reaches
      [{ id := 1, dataset_id := "A", operation := "opA",
         source_dataset_id := some "B", metadata := none,
         timestamp := "t", created_at := "t" },
       { id := 2, dataset_id := "B", operation := "opB",
         source_dataset_id := some "A", metadata := none,
         timestamp := "t", created_at := "t" }] "A" ⊆ {"A", "B"} := by
    intro x hx
    induction hx with
    | refl => exact Set.mem_insert "A" _
    | tail _hab hbc _ih =>
      obtain ⟨r, hr, _, hsrc, _⟩ := hbc
      rcases List.mem_cons.mp hr with rfl | hr2
      · rcases Option.some.inj hsrc with rfl
        exact Set.mem_insert_iff.mpr (Or.inr rfl)
      · rcases List.mem_singleton.mp hr2 with rfl
        rcases Option.some.inj hsrc with rfl
        exact Set.mem_insert _ _
  have hcard : (reaches
      [{ id := 1, dataset_id := "A", operation := "opA",
         source_dataset_id := some "B", metadata := none,
         timestamp := "t", created_at := "t" },
       { id := 2, dataset_id := "B", operation := "opB",
         source_dataset_id := some "A", metadata := none,
         timestamp := "t", created_at := "t" }] "A").ncard ≤ 2 := by
    have h2 : ({"A", "B"} : Set String).ncard = 2 := Set.ncard_pair (by decide)
    calc _ ≤ ({"A", "B"} : Set String).ncard :=
          Set.ncard_le_ncard hsub ((Set.finite_singleton _).insert _)
      _ = 2 := h2
  omega

/-! ## C10: first-visit-wins invariant of the returned tree -/

@[simp] theorem Node.dataset_id_mk (d : String)
    (ops : List (String × String × Option Json)) (srcs : List Node) :
    (Node.mk d ops srcs).dataset_id = d := rfl

@[simp] theorem Node.operations_mk (d : String)
    (ops : List (String × String × Option Json)) (srcs : List Node) :
    (Node.mk d ops srcs).operations = ops := rfl

@[simp] theorem Node.sources_mk (d : String)
    (ops : List (String × String × Option Json)) (srcs : List Node) :
    (Node.mk d ops srcs).sources = srcs := rfl

mutual
/-- All nodes of a lineage tree, the root included. -/
def Node.allNodes : Node → List Node
  | .mk d ops srcs => .mk d ops srcs :: allNodesList srcs

/-- All nodes of a forest of lineage trees. -/
def allNodesList : List Node → List Node
  | [] => []
  | n :: ns => n.allNodes ++ allNodesList ns
end

/-- The dataset ids of the nodes with non-empty `operations` in a forest. -/
def nonemptyOpIds (l : List Node) : List String :=
  ((allNodesList l).filter (fun n => !n.operations.isEmpty)).map Node.dataset_id

/-- The dataset ids of the nodes with non-empty `operations` in a tree. -/
def neIdsT (n : Node) : List String :=
  ((Node.allNodes n).filter (fun m => !m.operations.isEmpty)).map Node.dataset_id

theorem allNodes_eq (n : Node) :
    n.allNodes = n :: allNodesList n.sources := by
  cases n with
  | mk d ops srcs => rw [Node.allNodes]; simp

theorem allNodesList_append (l₁ l₂ : List Node) :
    allNodesList (l₁ ++ l₂) = allNodesList l₁ ++ allNodesList l₂ := by
  induction l₁ with
  | nil => simp [allNodesList]
  | cons n ns ih => simp [allNodesList, ih]

theorem allNodesList_snoc (l : List Node) (n : Node) :
    allNodesList (l ++ [n]) = allNodesList l ++ Node.allNodes n := by
  rw [allNodesList_append]
  simp [allNodesList]

theorem nonemptyOpIds_snoc (l : List Node) (n : Node) :
    nonemptyOpIds (l ++ [n]) = nonemptyOpIds l ++ neIdsT n := by
  unfold nonemptyOpIds neIdsT
  rw [allNodesList_snoc, List.filter_append, List.map_append]

theorem neIdsT_eq (n : Node) :
    neIdsT n = (if n.operations.isEmpty then [] else [n.dataset_id]) ++
      nonemptyOpIds n.sources := by
  cases n with
  | mk d ops srcs =>
    unfold neIdsT nonemptyOpIds
    rw [allNodes_eq, List.filter_cons]
    by_cases h : ops.isEmpty
    · simp [h]
    · simp [h]

/-- Loop invariant of the `for record in records` body: the accumulating
node keeps the current dataset id, gains at most one source per operation,
and the ids of non-empty nodes inside its subtrees are pairwise distinct,
already visited, and were not visited when this id's expansion began. -/
def accInv (id : String) (visited : List String)
    (acc : Node × List String) : Prop :=
  acc.1.dataset_id = id ∧
  acc.1.sources.length ≤ acc.1.operations.length ∧
  (∀ m ∈ allNodesList acc.1.sources,
    m.sources.length ≤ m.operations.length) ∧
  (nonemptyOpIds acc.1.sources).Nodup ∧
  (∀ x ∈ nonemptyOpIds acc.1.sources, x ∈ acc.2 ∧ x ∉ id :: visited) ∧
  (∀ x ∈ id :: visited, x ∈ acc.2)

theorem expandStep_inv (db : Ledger) (fuel : Nat) (id : String)
    (visited : List String)
    (hIH : ∀ s v,
      (∀ m ∈ Node.allNodes (expandGo db fuel s v).1,
        m.sources.length ≤ m.operations.length) ∧
      (neIdsT (expandGo db fuel s v).1).Nodup ∧
      (∀ x ∈ neIdsT (expandGo db fuel s v).1,
        x ∈ (expandGo db fuel s v).2 ∧ x ∉ v))
    (r : Record) (acc : Node × List String)
    (h : accInv id visited acc) :
    accInv id visited (expandStep (expandGo db fuel) acc r) := by
  obtain ⟨hds, hlen, hall, hnd, hmem, hsup⟩ := h
  unfold expandStep
  cases hsrc : r.source_dataset_id with
  | none =>
    exact ⟨by simpa using hds,
      by simp only [Node.sources_mk, Node.operations_mk, List.length_append]; omega,
      by simpa using hall, by simpa using hnd, by simpa using hmem,
      by simpa using hsup⟩
  | some s =>
    by_cases hs : s = ""
    · simp only [if_pos hs]
      exact ⟨by simpa using hds,
        by simp only [Node.sources_mk, Node.operations_mk, List.length_append]; omega,
        by simpa using hall, by simpa using hnd, by simpa using hmem,
        by simpa using hsup⟩
    · simp only [if_neg hs]
      obtain ⟨hc_all, hc_nd, hc_mem⟩ := hIH s acc.2
      have hmono : acc.2 ⊆ (expandGo db fuel s acc.2).2 :=
        expandGo_vis_mono db fuel s acc.2
      refine ⟨by simpa using hds, ?_, ?_, ?_, ?_, ?_⟩
      · simp only [Node.sources_mk, Node.operations_mk, List.length_append,
          List.length_cons, List.length_nil]
        omega
      · intro m hm
        simp only [Node.sources_mk] at hm
        rw [allNodesList_snoc] at hm
        rcases List.mem_append.mp hm with hm1 | hm2
        · exact hall m hm1
        · exact hc_all m hm2
      · simp only [Node.sources_mk]
        rw [nonemptyOpIds_snoc]
        refine hnd.append hc_nd ?_
        intro x hx1 hx2
        exact (hc_mem x hx2).2 (hmem x hx1).1
      · intro x hx
        simp only [Node.sources_mk] at hx
        rw [nonemptyOpIds_snoc] at hx
        rcases List.mem_append.mp hx with hx1 | hx2
        · exact ⟨hmono (hmem x hx1).1, (hmem x hx1).2⟩
        · exact ⟨(hc_mem x hx2).1, fun hxv => (hc_mem x hx2).2 (hsup x hxv)⟩
      · intro x hx
        exact hmono (hsup x hx)

theorem foldl_expandStep_inv (db : Ledger) (fuel : Nat) (id : String)
    (visited : List String)
    (hIH : ∀ s v,
      (∀ m ∈ Node.allNodes (expandGo db fuel s v).1,
        m.sources.length ≤ m.operations.length) ∧
      (neIdsT (expandGo db fuel s v).1).Nodup ∧
      (∀ x ∈ neIdsT (expandGo db fuel s v).1,
        x ∈ (expandGo db fuel s v).2 ∧ x ∉ v)) :
    ∀ (recs : List Record) (acc : Node × List String),
      accInv id visited acc →
      accInv id visited (recs.foldl (expandStep (expandGo db fuel)) acc) := by
  intro recs
  induction recs with
  | nil => intro acc h; exact h
  | cons r rs ih =>
    intro acc h
    exact ih _ (expandStep_inv db fuel id visited hIH r acc h)

/-- Structural invariant of every expansion: every node of the produced
tree has at most as many sources as operations, and the dataset ids of
nodes with non-empty operations are pairwise distinct and freshly visited
during this expansion. -/
theorem expandGo_inv (db : Ledger) :
    ∀ (fuel : Nat) (id : String) (visited : List String),
      (∀ m ∈ Node.allNodes (expandGo db fuel id visited).1,
        m.sources.length ≤ m.operations.length) ∧
      (neIdsT (expandGo db fuel id visited).1).Nodup ∧
      (∀ x ∈ neIdsT (expandGo db fuel id visited).1,
        x ∈ (expandGo db fuel id visited).2 ∧ x ∉ visited) := by
  intro fuel
  induction fuel with
  | zero =>
    intro id visited
    refine ⟨?_, ?_, ?_⟩ <;>
      simp [expandGo, Node.empty, Node.allNodes, allNodesList, neIdsT,
        nonemptyOpIds, List.filter]
  | succ fuel ih =>
    intro id visited
    unfold expandGo
    by_cases hv : id ∈ visited
    · simp only [if_pos hv]
      refine ⟨?_, ?_, ?_⟩ <;>
        simp [Node.empty, Node.allNodes, allNodesList, neIdsT,
          nonemptyOpIds, List.filter]
    · simp only [if_neg hv]
      have hinit : accInv id visited (Node.empty id, id :: visited) := by
        refine ⟨rfl, le_refl 0, ?_, ?_, ?_, fun x hx => hx⟩ <;>
          simp [Node.empty, allNodesList, nonemptyOpIds, List.filter]
      obtain ⟨hds, hlen, hall, hnd, hmem, hsup⟩ :=
        foldl_expandStep_inv db fuel id visited (fun s v => ih s v)
          (get_lineage db id) (Node.empty id, id :: visited) hinit
      set res := (get_lineage db id).foldl (expandStep (expandGo db fuel))
        (Node.empty id, id :: visited) with hres
      refine ⟨?_, ?_, ?_⟩
      · intro m hm
        rw [allNodes_eq] at hm
        rcases List.mem_cons.mp hm with rfl | hm2
        · exact hlen
        · exact hall m hm2
      · rw [neIdsT_eq]
        by_cases hop : res.1.operations.isEmpty
        · simpa [hop] using hnd
        · rw [if_neg hop, hds, List.singleton_append]
          refine List.Pairwise.cons ?_ hnd
          intro x hx hxid
          exact (hmem x hx).2 (hxid ▸ List.mem_cons_self id visited)
      · intro x hx
        rw [neIdsT_eq] at hx
        rcases List.mem_append.mp hx with hx1 | hx2
        · by_cases hop : res.1.operations.isEmpty
          · rw [if_pos hop] at hx1
            exact absurd hx1 (List.not_mem_nil x)
          · rw [if_neg hop, hds] at hx1
            have hxid : x = id := List.mem_singleton.mp hx1
            subst hxid
            exact ⟨hsup x (List.mem_cons_self x visited), hv⟩
        · exact ⟨(hmem x hx2).1,
            fun hxv => (hmem x hx2).2 (List.mem_cons_of_mem id hxv)⟩

/-- `C10`: in the tree returned by `get_full_lineage_graph`, the dataset
ids of nodes with non-empty `operations` are pairwise distinct — at most
one node per identifier (the first-visited one) carries content; every
node with empty `operations` also has empty `sources`; and in every node
the number of source children never exceeds the number of operation
entries. -/
theorem buildGraph_first_visit_invariant (db : Ledger) (root : String) :
    (((Node.allNodes (get_full_lineage_graph db root)).filter
        (fun m => !m.operations.isEmpty)).map Node.dataset_id).Nodup ∧
    ∀ m ∈ Node.allNodes (get_full_lineage_graph db root),
      m.sources.length ≤ m.operations.length ∧
      (m.operations = [] → m.sources = []) := by
  obtain ⟨hall, hnd, _⟩ := expandGo_inv db (db.length + 2) root []
  refine ⟨hnd, ?_⟩
  intro m hm
  refine ⟨hall m hm, ?_⟩
  intro hops
  have hl := hall m hm
  rw [hops] at hl
  simp only [List.length_nil, Nat.le_zero] at hl
  exact List.eq_nil_of_length_eq_zero hl
